import Mathlib

/-!
Shallow embedding of the number-theory core of qpp (`include/number_theory.h`):
continued-fraction expansion and reconstruction, gcd/lcm over pairs and
collections, and permutation inversion and composition.

Modelling conventions:
* `idx` (a non-negative machine integer, described by the design as "unbounded
  in principle") is modelled as `Nat`; `long long int` and `int` as `Int`.
* `throw Exception(...)` is modelled as `Except.error` carrying the exception
  type tag; a normal return is `Except.ok`.
* `double` values flowing through the continued-fraction codec are modelled
  exactly: expansion works on `ℚ`, and reconstruction works on `DVal`, the
  rationals extended with the single non-finite value (`+inf`) that is
  reachable on these code paths (the reciprocal of an exact zero).  Negative
  infinity and NaN cannot arise here: every denominator is a finite rational
  plus a finite integer, and `1/inf = 0`, `inf + c = inf` keep the positive
  infinity closed under the operations the loops perform.
-/

namespace Qpp

/-- The `qpp::Exception::Type` tags thrown by the functions modelled here. -/
inductive ExcType
  | ZERO_SIZE
  | OUT_OF_RANGE
  | PERM_INVALID
deriving DecidableEq, Repr

/-- Model of the `double` values produced by continued-fraction
reconstruction: a finite rational, or the positive non-finite value obtained
as the reciprocal of an exact zero. -/
inductive DVal
  | fin (q : ℚ)
  | inf
deriving DecidableEq, Repr

/-- Addition on `DVal`; on the code paths modelled, at least one operand is a
finite integer, so the IEEE `inf - inf` (NaN) case never arises. -/
def DVal.add : DVal → DVal → DVal
  | .fin a, .fin b => .fin (a + b)
  | _, _ => .inf

/-- Reciprocal on `DVal`: `1/0 = +inf` and `1/inf = 0`, as in IEEE arithmetic
with a positive zero. -/
def DVal.recip : DVal → DVal
  | .fin q => if q = 0 then .inf else .fin q⁻¹
  | .inf => .fin 0

/-! ### Continued-fraction expansion: `x2contfrac` -/

/-- The `for (idx i = 0; i < n; ++i)` loop body of `x2contfrac`: push
`llround(floor(x))`, replace `x` by `1/(x - floor(x))`, and return the list
collected so far as soon as the new value is non-finite (exact zero
remainder) or exceeds `cut`.  `Rat.floor` is the floor function on `ℚ`. -/
def x2cfLoop (cut : ℕ) : ℚ → ℕ → List ℤ → List ℤ
  | _, 0, acc => acc
  | x, n + 1, acc =>
    if x - Rat.floor x = 0 then acc ++ [Rat.floor x]
    else if (cut : ℚ) < 1 / (x - Rat.floor x) then acc ++ [Rat.floor x]
    else x2cfLoop cut (1 / (x - Rat.floor x)) n (acc ++ [Rat.floor x])

/-- `qpp::x2contfrac(double x, idx n, idx cut = 1e5)`. -/
def x2contfrac (x : ℚ) (n : ℕ) (cut : ℕ) : Except ExcType (List ℤ) :=
  if n = 0 then .error .OUT_OF_RANGE
  else .ok (x2cfLoop cut x n [])

/-- The expansion process as the specification words it: repeatedly emit the
floor of the current value and replace the value by `1/(x - floor x)`,
stopping (with the terms collected so far) as soon as the next value is
non-finite or exceeds the cutoff, after at most `n` terms. -/
def cfExpandSpec (cut : ℕ) : ℚ → ℕ → List ℤ
  | _, 0 => []
  | x, n + 1 =>
    Rat.floor x ::
      (if x - Rat.floor x = 0 then []
       else if (cut : ℚ) < 1 / (x - Rat.floor x) then []
       else cfExpandSpec cut (1 / (x - Rat.floor x)) n)

/-! ### Continued-fraction reconstruction: the two `contfrac2x` overloads -/

/-- The `for (idx i = n - 2; i != 0; --i) tmp = 1. / (tmp + cf[i])` loop
shared by both `contfrac2x` overloads, running from index `i` down to
index `1`. -/
def cf2xLoop (cf : List ℤ) : DVal → ℕ → DVal
  | tmp, 0 => tmp
  | tmp, k + 1 => cf2xLoop cf (DVal.recip (DVal.add tmp (.fin (cf.getD (k + 1) 0)))) k

/-- `qpp::contfrac2x(const std::vector<int>& cf, idx n)`: reconstruction
using the first `n` terms (clamped to the sequence length). -/
def contfrac2xN (cf : List ℤ) (n : ℕ) : Except ExcType DVal :=
  if cf.length = 0 then .error .ZERO_SIZE
  else if n = 0 then .error .OUT_OF_RANGE
  else if min n cf.length = 1 then .ok (.fin ((cf.getD 0 0 : ℤ) : ℚ))
  else
    .ok (DVal.add (.fin ((cf.getD 0 0 : ℤ) : ℚ))
      (cf2xLoop cf (DVal.recip (.fin ((cf.getD (min n cf.length - 1) 0 : ℤ) : ℚ)))
        (min n cf.length - 2)))

/-- `qpp::contfrac2x(const std::vector<int>& cf)`: reconstruction using all
terms. -/
def contfrac2x1 (cf : List ℤ) : Except ExcType DVal :=
  if cf.length = 0 then .error .ZERO_SIZE
  else if cf.length = 1 then .ok (.fin ((cf.getD 0 0 : ℤ) : ℚ))
  else
    .ok (DVal.add (.fin ((cf.getD 0 0 : ℤ) : ℚ))
      (cf2xLoop cf (DVal.recip (.fin ((cf.getD (cf.length - 1) 0 : ℤ) : ℚ)))
        (cf.length - 2)))

/-! ### gcd and lcm -/

/-- The `while (n) { result = n; n = m % result; m = result; }` loop of
`qpp::gcd(idx, idx)`, expressed as the state transition
`(m, n) ↦ (n, m % n)`; the returned value is the last non-zero remainder. -/
def euclidLoop (m n : ℕ) : ℕ :=
  if h : n = 0 then m else euclidLoop n (m % n)
termination_by n
decreasing_by exact Nat.mod_lt _ (Nat.pos_of_ne_zero h)

/-- `qpp::gcd(idx m, idx n)`. -/
def gcd (m n : ℕ) : ℕ :=
  if m = 0 ∨ n = 0 then max m n
  else euclidLoop m n

/-- `qpp::gcd(const std::vector<idx>& ns)`: fold the pairwise gcd
left-to-right, seeded with the first element. -/
def gcdList (ns : List ℕ) : Except ExcType ℕ :=
  match ns with
  | [] => .error .ZERO_SIZE
  | x :: rest => .ok (rest.foldl gcd x)

/-- `qpp::lcm(idx m, idx n)`. -/
def lcm (m n : ℕ) : Except ExcType ℕ :=
  if m = 0 ∨ n = 0 then .error .OUT_OF_RANGE
  else .ok (m * n / gcd m n)

/-- `qpp::lcm(const std::vector<idx>& ns)`: singleton bypass, zero scan,
then `accumulate(ns, 1, *) / gcd(ns)`. -/
def lcmList (ns : List ℕ) : Except ExcType ℕ :=
  match ns with
  | [] => .error .ZERO_SIZE
  | [n] => .ok n
  | x :: y :: rest =>
    if 0 ∈ x :: y :: rest then .error .OUT_OF_RANGE
    else .ok (((x :: y :: rest).foldl (· * ·) 1) / ((y :: rest).foldl gcd x))

/-! ### Permutations -/

/-- Modelled from the spec: `internal::_check_perm` is declared but not part
of the visible sources; §4.3 describes it as "a candidate permutation vector
of length N is valid iff every element lies in [0, N) and all elements are
pairwise distinct (i.e., it is a bijection on the index range)". -/
def _check_perm (perm : List ℕ) : Prop :=
  (∀ x ∈ perm, x < perm.length) ∧ perm.Nodup

instance (perm : List ℕ) : Decidable (_check_perm perm) := by
  unfold _check_perm; infer_instance

/-- `qpp::invperm(const std::vector<idx>& perm)`: validate, then run the
write loop `result[perm[i]] = i` over a zero-initialised vector of the same
size. -/
def invperm (perm : List ℕ) : Except ExcType (List ℕ) :=
  if _check_perm perm then
    .ok ((List.range perm.length).foldl
      (fun res i => res.set (perm.getD i 0) i)
      (List.replicate perm.length 0))
  else .error .PERM_INVALID

/-- `qpp::compperm(const std::vector<idx>& perm, const std::vector<idx>&
sigma)`: validate both inputs and their lengths, then build
`result[i] = perm[sigma[i]]`. -/
def compperm (perm : List ℕ) (sigma : List ℕ) : Except ExcType (List ℕ) :=
  if ¬ _check_perm perm then .error .PERM_INVALID
  else if ¬ _check_perm sigma then .error .PERM_INVALID
  else if perm.length ≠ sigma.length then .error .PERM_INVALID
  else .ok ((List.range perm.length).map (fun i => perm.getD (sigma.getD i 0) 0))

/-! ## gcd / lcm lemmas -/

theorem euclidLoop_eq_gcd (m n : ℕ) : euclidLoop m n = Nat.gcd n m := by
  induction n using Nat.strong_induction_on generalizing m with
  | _ n ih =>
    rw [euclidLoop]
    by_cases h : n = 0
    · simp [h]
    · rw [dif_neg h, ih (m % n) (Nat.mod_lt _ (Nat.pos_of_ne_zero h))]
      exact (Nat.gcd_rec n m).symm

theorem gcd_eq_nat_gcd (m n : ℕ) : gcd m n = Nat.gcd m n := by
  unfold gcd
  by_cases h : m = 0 ∨ n = 0
  · rcases h with rfl | rfl <;> simp [Nat.gcd_comm]
  · rw [if_neg h, euclidLoop_eq_gcd, Nat.gcd_comm]

theorem foldl_gcd_eq_nat (rest : List ℕ) (x : ℕ) :
    rest.foldl gcd x = rest.foldl Nat.gcd x := by
  induction rest generalizing x with
  | nil => rfl
  | cons y rest ih => rw [List.foldl_cons, List.foldl_cons, gcd_eq_nat_gcd, ih]

theorem foldl_gcd_dvd (rest : List ℕ) (x : ℕ) :
    (rest.foldl Nat.gcd x) ∣ x ∧ ∀ y ∈ rest, (rest.foldl Nat.gcd x) ∣ y := by
  induction rest generalizing x with
  | nil => simp
  | cons y rest ih =>
    rw [List.foldl_cons]
    obtain ⟨h1, h2⟩ := ih (Nat.gcd x y)
    refine ⟨h1.trans (Nat.gcd_dvd_left x y), ?_⟩
    intro z hz
    rcases List.mem_cons.1 hz with rfl | hz2
    · exact h1.trans (Nat.gcd_dvd_right x z)
    · exact h2 z hz2

theorem dvd_foldl_gcd (rest : List ℕ) (x d : ℕ) (hx : d ∣ x)
    (h : ∀ y ∈ rest, d ∣ y) : d ∣ rest.foldl Nat.gcd x := by
  induction rest generalizing x with
  | nil => simpa using hx
  | cons y rest ih =>
    rw [List.foldl_cons]
    exact ih (Nat.gcd x y) (Nat.dvd_gcd hx (h y (List.mem_cons_self y rest)))
      (fun z hz => h z (List.mem_cons_of_mem y hz))

/-- C7: pairwise gcd never signals an error on non-negative inputs (it is a
total function into ℕ), and it is commutative, satisfies `gcd(m, 0) = m`,
and `gcd(0, 0) = 0`. -/
theorem gcd_pair_spec (m n : ℕ) :
    gcd m n = gcd n m ∧ gcd m 0 = m ∧ gcd 0 0 = 0 := by
  simp [gcd_eq_nat_gcd, Nat.gcd_comm m n]

/-- C3: pairwise lcm errors exactly when an operand is zero, and for
positive operands `lcm(m, n) * gcd(m, n) = m * n`. -/
theorem lcm_pair_spec (m n : ℕ) :
    ((∃ e, lcm m n = .error e) ↔ (m = 0 ∨ n = 0))
    ∧ (0 < m → 0 < n → ∃ v, lcm m n = .ok v ∧ v * gcd m n = m * n) := by
  constructor
  · constructor
    · intro ⟨e, he⟩
      by_cases h : m = 0 ∨ n = 0
      · exact h
      · rw [lcm, if_neg h] at he
        exact absurd he (by simp)
    · intro h
      exact ⟨.OUT_OF_RANGE, by rw [lcm, if_pos h]⟩
  · intro hm hn
    have hor : ¬ (m = 0 ∨ n = 0) := by omega
    refine ⟨m * n / gcd m n, by rw [lcm, if_neg hor], ?_⟩
    rw [gcd_eq_nat_gcd]
    exact Nat.div_mul_cancel (dvd_mul_of_dvd_left (Nat.gcd_dvd_left m n) n)

/-- Witness for C3 at `(m, n) = (4, 6)`. -/
theorem lcm_pair_spec_witness :
    ∃ v, lcm 4 6 = .ok v ∧ v * gcd 4 6 = 4 * 6 :=
  (lcm_pair_spec 4 6).2 (by norm_num) (by norm_num)

/-- C6 (amended): collection gcd errors exactly on the empty collection;
on `x :: rest` it returns the left fold of pairwise gcd seeded with `x`;
the result divides every element and every common divisor divides the
result, so whenever some element is non-zero no numerically larger common
divisor exists. -/
theorem gcdList_spec (ns : List ℕ) :
    ((∃ e, gcdList ns = .error e) ↔ ns = [])
    ∧ (∀ x rest, ns = x :: rest → gcdList ns = .ok (rest.foldl gcd x))
    ∧ (∀ g, gcdList ns = .ok g →
        (∀ y ∈ ns, g ∣ y)
        ∧ (∀ d, (∀ y ∈ ns, d ∣ y) → d ∣ g)
        ∧ ((∃ y ∈ ns, y ≠ 0) → ∀ d, (∀ y ∈ ns, d ∣ y) → d ≤ g)) := by
  refine ⟨?_, ?_, ?_⟩
  · cases ns with
    | nil => simp [gcdList]
    | cons x rest => simp [gcdList]
  · intro x rest h
    subst h
    rfl
  · intro g hg
    cases ns with
    | nil => exact absurd hg (by simp [gcdList])
    | cons x rest =>
      rw [gcdList] at hg
      have hg2 : g = rest.foldl Nat.gcd x := by
        have := Except.ok.inj hg
        rw [← this, foldl_gcd_eq_nat]
      subst hg2
      obtain ⟨h1, h2⟩ := foldl_gcd_dvd rest x
      refine ⟨?_, ?_, ?_⟩
      · intro y hy
        rcases List.mem_cons.1 hy with rfl | hy2
        · exact h1
        · exact h2 y hy2
      · intro d hd
        exact dvd_foldl_gcd rest x d (hd x (List.mem_cons_self x rest))
          (fun z hz => hd z (List.mem_cons_of_mem x hz))
      · rintro ⟨y, hy, hy0⟩ d hd
        have hdg : d ∣ rest.foldl Nat.gcd x :=
          dvd_foldl_gcd rest x d (hd x (List.mem_cons_self x rest))
            (fun z hz => hd z (List.mem_cons_of_mem x hz))
        have hgy : rest.foldl Nat.gcd x ∣ y := by
          rcases List.mem_cons.1 hy with rfl | hy2
          · exact h1
          · exact h2 y hy2
        have hgpos : 0 < rest.foldl Nat.gcd x := by
          rcases Nat.eq_zero_or_pos (rest.foldl Nat.gcd x) with h0 | hpos
          · rw [h0] at hgy
            exact absurd (Nat.eq_zero_of_zero_dvd hgy) hy0
          · exact hpos
        exact Nat.le_of_dvd hgpos hdg

/-- Witness for C6's amended theorem at `ns = [12, 18, 24]`. -/
theorem gcdList_spec_witness :
    gcdList [12, 18, 24] = .ok ([18, 24].foldl gcd 12) :=
  (gcdList_spec [12, 18, 24]).2.1 12 [18, 24] rfl

/-- C6 counterexample: on the all-zero collection `[0]` the code returns 0,
yet a numerically larger common divisor (namely 1) of all elements exists,
so "no larger common divisor exists" fails as stated. -/
theorem gcdList_maximal_cex :
    gcdList [0] = Except.ok 0
    ∧ ¬ (∀ d : ℕ, (∀ y ∈ [(0 : ℕ)], d ∣ y) → d ≤ 0) := by
  refine ⟨rfl, fun h => ?_⟩
  have := h 1 (by simp)
  omega

/-- C1: collection lcm errors exactly on the empty collection or a
collection of size ≥ 2 containing a zero; a singleton is returned
unchanged (including `lcm({0}) = 0`); otherwise the result is the product
of all elements divided by the collection gcd. -/
theorem lcmList_spec (ns : List ℕ) :
    ((∃ e, lcmList ns = .error e) ↔ (ns = [] ∨ (2 ≤ ns.length ∧ 0 ∈ ns)))
    ∧ (∀ m, ns = [m] → lcmList ns = .ok m)
    ∧ (2 ≤ ns.length → 0 ∉ ns →
        ∃ g, gcdList ns = .ok g ∧ lcmList ns = .ok (ns.prod / g)) := by
  refine ⟨?_, ?_, ?_⟩
  · match ns with
    | [] => simp [lcmList]
    | [n] => simp [lcmList]
    | x :: y :: rest =>
      constructor
      · intro ⟨e, he⟩
        rw [lcmList] at he
        by_cases h0 : 0 ∈ x :: y :: rest
        · right
          exact ⟨by simp, h0⟩
        · rw [if_neg h0] at he
          exact absurd he (by simp)
      · rintro (h | ⟨-, h0⟩)
        · exact absurd h (by simp)
        · exact ⟨.OUT_OF_RANGE, by rw [lcmList, if_pos h0]⟩
  · intro m h
    subst h
    rfl
  · intro hlen h0
    match ns with
    | x :: y :: rest =>
      refine ⟨(y :: rest).foldl gcd x, rfl, ?_⟩
      rw [lcmList, if_neg h0, List.prod_eq_foldl]
/-- Witness for C1 at `ns = [4, 6]`. -/
theorem lcmList_spec_witness :
    ∃ g, gcdList [4, 6] = .ok g ∧ lcmList [4, 6] = .ok (([4, 6] : List ℕ).prod / g) :=
  (lcmList_spec [4, 6]).2.2 (by simp) (by simp)

/-! ## Continued-fraction lemmas -/

theorem x2cfLoop_eq_spec (cut : ℕ) (x : ℚ) (n : ℕ) (acc : List ℤ) :
    x2cfLoop cut x n acc = acc ++ cfExpandSpec cut x n := by
  induction n generalizing x acc with
  | zero => simp [x2cfLoop, cfExpandSpec]
  | succ n ih =>
    rw [x2cfLoop, cfExpandSpec]
    by_cases h0 : x - Rat.floor x = 0
    · rw [if_pos h0, if_pos h0]
    · rw [if_neg h0, if_neg h0]
      by_cases hc : (cut : ℚ) < 1 / (x - Rat.floor x)
      · rw [if_pos hc, if_pos hc]
      · rw [if_neg hc, if_neg hc, ih]
        simp

theorem cfExpandSpec_length (cut : ℕ) (x : ℚ) (n : ℕ) :
    (cfExpandSpec cut x n).length ≤ n := by
  induction n generalizing x with
  | zero => simp [cfExpandSpec]
  | succ n ih =>
    rw [cfExpandSpec]
    by_cases h0 : x - Rat.floor x = 0
    · rw [if_pos h0]
      simp
    · rw [if_neg h0]
      by_cases hc : (cut : ℚ) < 1 / (x - Rat.floor x)
      · rw [if_pos hc]
        simp
      · rw [if_neg hc, List.length_cons]
        exact Nat.succ_le_succ (ih _)

/-- C4: expansion errors exactly when `n = 0`; otherwise the returned
sequence has at most `n` terms and is exactly the sequence described by the
specification recursion (emit the floor, recurse on the reciprocal of the
remainder, stop on a non-finite next value or one exceeding the cutoff). -/
theorem x2contfrac_spec (x : ℚ) (n cut : ℕ) :
    ((∃ e, x2contfrac x n cut = .error e) ↔ n = 0)
    ∧ (∀ l, x2contfrac x n cut = .ok l →
        l = cfExpandSpec cut x n ∧ l.length ≤ n) := by
  constructor
  · by_cases h : n = 0
    · simp [x2contfrac, h]
    · simp [x2contfrac, h]
  · intro l hl
    by_cases h : n = 0
    · rw [x2contfrac, if_pos h] at hl
      exact absurd hl (by simp)
    · rw [x2contfrac, if_neg h] at hl
      have := Except.ok.inj hl
      subst this
      rw [x2cfLoop_eq_spec]
      simpa using cfExpandSpec_length cut x n

/-- Witness for C4 at `x = 3/2`, `n = 5`, `cut = 100000` (expansion
`[1, 2]`). -/
theorem x2contfrac_spec_witness :
    ([1, 2] : List ℤ) = cfExpandSpec 100000 (3 / 2 : ℚ) 5
    ∧ ([1, 2] : List ℤ).length ≤ 5 :=
  (x2contfrac_spec (3 / 2 : ℚ) 5 100000).2 [1, 2] (by with_unfolding_all rfl)

/-- C10: whenever at least one term is requested, the expansion succeeds
and returns at least one term (the floor of `x` is emitted before any
divergence check). -/
theorem x2contfrac_nonempty (x : ℚ) (n cut : ℕ) (h : 1 ≤ n) :
    ∃ l, x2contfrac x n cut = .ok l ∧ 1 ≤ l.length := by
  obtain ⟨m, rfl⟩ : ∃ m, n = m + 1 := ⟨n - 1, by omega⟩
  refine ⟨x2cfLoop cut x (m + 1) [], by rw [x2contfrac, if_neg (by omega)], ?_⟩
  rw [x2cfLoop_eq_spec, cfExpandSpec]
  simp

/-- Witness for C10 at `x = 3/2`, `n = 5`, `cut = 100000`. -/
theorem x2contfrac_nonempty_witness :
    ∃ l, x2contfrac (3 / 2 : ℚ) 5 100000 = .ok l ∧ 1 ≤ l.length :=
  x2contfrac_nonempty (3 / 2 : ℚ) 5 100000 (by norm_num)

/-- C5: both reconstruction overloads error (with the empty-input kind) on
an empty sequence; an explicit `n = 0` errors on a non-empty sequence; a
count larger than the length is clamped to the length; and the two
overloads agree whenever `n` is at least the sequence length. -/
theorem contfrac2x_spec (cf : List ℤ) (n : ℕ) :
    (contfrac2xN ([] : List ℤ) n = .error .ZERO_SIZE)
    ∧ (contfrac2x1 ([] : List ℤ) = .error .ZERO_SIZE)
    ∧ (cf ≠ [] → contfrac2xN cf 0 = .error .OUT_OF_RANGE)
    ∧ (cf.length < n → contfrac2xN cf n = contfrac2xN cf cf.length)
    ∧ (cf.length ≤ n → contfrac2xN cf n = contfrac2x1 cf) := by
  refine ⟨rfl, rfl, ?_, ?_, ?_⟩
  · intro h
    have hlen : ¬ cf.length = 0 := by simpa using h
    rw [contfrac2xN, if_neg hlen, if_pos rfl]
  · intro hn
    by_cases hlen : cf.length = 0
    · rw [contfrac2xN, if_pos hlen, contfrac2xN, if_pos hlen]
    · have hn0 : ¬ n = 0 := by omega
      have hmin : min n cf.length = cf.length := by omega
      have hmin2 : min cf.length cf.length = cf.length := by omega
      rw [contfrac2xN, if_neg hlen, if_neg hn0, contfrac2xN, if_neg hlen,
        if_neg hlen, hmin, hmin2]
  · intro hn
    by_cases hlen : cf.length = 0
    · rw [contfrac2xN, if_pos hlen, contfrac2x1, if_pos hlen]
    · have hn0 : ¬ n = 0 := by omega
      have hmin : min n cf.length = cf.length := by omega
      rw [contfrac2xN, if_neg hlen, if_neg hn0, hmin, contfrac2x1, if_neg hlen]

/-- Witness for C5 at `cf = [1, 2]`, `n = 5`. -/
theorem contfrac2x_spec_witness :
    contfrac2xN [1, 2] 5 = contfrac2x1 [1, 2]
    ∧ contfrac2xN [1, 2] 0 = .error .OUT_OF_RANGE :=
  ⟨(contfrac2x_spec [1, 2] 5).2.2.2.2 (by norm_num),
   (contfrac2x_spec [1, 2] 5).2.2.1 (by simp)⟩

/-- C9: reconstruction divides unguarded — on the non-empty sequence
`[1, 0]` it returns the non-finite value instead of signaling an error. -/
theorem contfrac2x_unguarded_div : contfrac2x1 [1, 0] = .ok DVal.inf := by rfl
/-! ## Permutation lemmas -/

theorem getD_map_range (N : ℕ) (f : ℕ → ℕ) (i : ℕ) (hi : i < N) :
    ((List.range N).map f).getD i 0 = f i := by
  have hlen : i < ((List.range N).map f).length := by simp [hi]
  rw [List.getD_eq_getElem _ _ hlen]
  simp

theorem check_perm_bound (p : List ℕ) (h : _check_perm p) (i : ℕ)
    (hi : i < p.length) : p.getD i 0 < p.length := by
  rw [List.getD_eq_getElem _ _ hi]
  exact h.1 _ (List.getElem_mem hi)

theorem check_perm_inj (p : List ℕ) (h : _check_perm p) (a : ℕ)
    (ha : a < p.length) (b : ℕ) (hb : b < p.length)
    (heq : p.getD a 0 = p.getD b 0) : a = b := by
  rw [List.getD_eq_getElem _ _ ha, List.getD_eq_getElem _ _ hb] at heq
  exact (List.Nodup.getElem_inj_iff h.2).1 heq

theorem check_perm_surj (p : List ℕ) (h : _check_perm p) (j : ℕ)
    (hj : j < p.length) : ∃ i, i < p.length ∧ p.getD i 0 = j := by
  have hcard : p.toFinset = Finset.range p.length := by
    apply Finset.eq_of_subset_of_card_le
    · intro x hx
      rw [Finset.mem_range]
      exact h.1 x (List.mem_toFinset.1 hx)
    · rw [Finset.card_range, List.toFinset_card_of_nodup h.2]
  have hjmem : j ∈ p := by
    rw [← List.mem_toFinset, hcard]
    exact Finset.mem_range.2 hj
  obtain ⟨k, hk, hkj⟩ := List.mem_iff_getElem.1 hjmem
  exact ⟨k, hk, by rw [List.getD_eq_getElem _ _ hk, hkj]⟩

theorem foldl_set_length (p : List ℕ) (L : List ℕ) (init : List ℕ) :
    (L.foldl (fun res i => res.set (p.getD i 0) i) init).length = init.length := by
  induction L generalizing init with
  | nil => rfl
  | cons a L ih => rw [List.foldl_cons, ih, List.length_set]

theorem getD_set_ne (l : List ℕ) (k v j : ℕ) (h : k ≠ j) :
    (l.set k v).getD j 0 = l.getD j 0 := by
  rw [List.getD_eq_getElem?_getD, List.getD_eq_getElem?_getD l j 0,
    List.getElem?_set_ne h]

theorem getD_set_self (l : List ℕ) (k v : ℕ) (h : k < l.length) :
    (l.set k v).getD k 0 = v := by
  rw [List.getD_eq_getElem?_getD, List.getElem?_set_self h, Option.getD_some]

theorem foldl_set_getD_notmem (p : List ℕ) (L : List ℕ) (init : List ℕ) (j : ℕ)
    (h : ∀ i ∈ L, p.getD i 0 ≠ j) :
    (L.foldl (fun res i => res.set (p.getD i 0) i) init).getD j 0 = init.getD j 0 := by
  induction L generalizing init with
  | nil => rfl
  | cons a L ih =>
    rw [List.foldl_cons, ih _ (fun i hi => h i (List.mem_cons_of_mem a hi)),
      getD_set_ne _ _ _ _ (h a (List.mem_cons_self a L))]

theorem foldl_set_getD_mem (p : List ℕ) (L : List ℕ) (init : List ℕ) (i : ℕ)
    (hmem : i ∈ L) (hnd : L.Nodup)
    (hinj : ∀ a ∈ L, ∀ b ∈ L, p.getD a 0 = p.getD b 0 → a = b)
    (hlt : p.getD i 0 < init.length) :
    (L.foldl (fun res i => res.set (p.getD i 0) i) init).getD (p.getD i 0) 0 = i := by
  induction L generalizing init with
  | nil => cases hmem
  | cons a L ih =>
    rw [List.foldl_cons]
    rcases List.mem_cons.1 hmem with rfl | hmem2
    · have hnotin : ∀ b ∈ L, p.getD b 0 ≠ p.getD i 0 := by
        intro b hb heq
        have hbi : b = i :=
          hinj b (List.mem_cons_of_mem i hb) i (List.mem_cons_self i L) heq
        subst hbi
        exact (List.nodup_cons.1 hnd).1 hb
      rw [foldl_set_getD_notmem p L _ _ hnotin]
      exact getD_set_self init _ i hlt
    · exact ih (init.set (p.getD a 0) a) hmem2 (List.nodup_cons.1 hnd).2
        (fun a2 ha2 b hb => hinj a2 (List.mem_cons_of_mem a ha2) b
          (List.mem_cons_of_mem a hb))
        (by rw [List.length_set]; exact hlt)
/-- C2: for a valid permutation `p`, inversion succeeds and returns a
vector `q` of the same length with `q[p[i]] = i` for every index, and
composing `p` with `q` in either order yields the identity permutation
`[0, 1, ..., N-1]`. -/
theorem invperm_spec (p : List ℕ) (h : _check_perm p) :
    ∃ q, invperm p = .ok q ∧ q.length = p.length
      ∧ (∀ i, i < p.length → q.getD (p.getD i 0) 0 = i)
      ∧ compperm p q = .ok (List.range p.length)
      ∧ compperm q p = .ok (List.range p.length) := by
  obtain ⟨q, hq⟩ : ∃ q, (List.range p.length).foldl
      (fun res i => res.set (p.getD i 0) i) (List.replicate p.length 0) = q :=
    ⟨_, rfl⟩
  have hlen : q.length = p.length := by
    rw [← hq, foldl_set_length, List.length_replicate]
  have hmain : ∀ i, i < p.length → q.getD (p.getD i 0) 0 = i := by
    intro i hi
    rw [← hq]
    exact foldl_set_getD_mem p (List.range p.length) _ i (List.mem_range.2 hi)
      (List.nodup_range p.length)
      (fun a ha b hb => check_perm_inj p h a (List.mem_range.1 ha) b
        (List.mem_range.1 hb))
      (by rw [List.length_replicate]; exact check_perm_bound p h i hi)
  have hqbound : ∀ j, j < p.length → q.getD j 0 < p.length := by
    intro j hj
    obtain ⟨i, hi, hpi⟩ := check_perm_surj p h j hj
    rw [← hpi, hmain i hi]
    exact hi
  have hqvalid : _check_perm q := by
    constructor
    · intro x hx
      obtain ⟨k, hk, hkx⟩ := List.mem_iff_getElem.1 hx
      rw [← hkx, ← List.getD_eq_getElem q 0 hk, hlen]
      exact hqbound k (by rw [← hlen]; exact hk)
    · rw [List.nodup_iff_injective_get]
      intro a b heq
      obtain ⟨a, ha⟩ := a
      obtain ⟨b, hb⟩ := b
      have ha2 : a < p.length := by rw [← hlen]; exact ha
      have hb2 : b < p.length := by rw [← hlen]; exact hb
      obtain ⟨ia, hia, hpia⟩ := check_perm_surj p h a ha2
      obtain ⟨ib, hib, hpib⟩ := check_perm_surj p h b hb2
      have hga : q.getD a 0 = ia := by rw [← hpia, hmain ia hia]
      have hgb : q.getD b 0 = ib := by rw [← hpib, hmain ib hib]
      have heq2 : q.getD a 0 = q.getD b 0 := by
        rw [List.getD_eq_getElem q 0 ha, List.getD_eq_getElem q 0 hb]
        simpa using heq
      apply Fin.ext
      show a = b
      rw [← hpia, ← hpib]
      rw [hga, hgb] at heq2
      rw [heq2]
  have hllen : ¬ p.length ≠ q.length := fun hne => hne hlen.symm
  have hllen2 : ¬ q.length ≠ p.length := fun hne => hne hlen
  refine ⟨q, by rw [invperm, if_pos h, hq], hlen, hmain, ?_, ?_⟩
  · rw [compperm, if_neg (not_not_intro h), if_neg (not_not_intro hqvalid),
      if_neg hllen]
    congr 1
    apply List.ext_getElem (by simp)
    intro i hi1 hi2
    have hi : i < p.length := by simpa using hi2
    obtain ⟨ii, hii, hpii⟩ := check_perm_surj p h i hi
    have hgi : q.getD i 0 = ii := by rw [← hpii, hmain ii hii]
    simp only [List.getElem_map, List.getElem_range]
    rw [hgi, hpii]
  · rw [compperm, if_neg (not_not_intro hqvalid), if_neg (not_not_intro h),
      if_neg hllen2]
    congr 1
    apply List.ext_getElem (by simp [hlen])
    intro i hi1 hi2
    have hi : i < p.length := by simpa using hi2
    simp only [List.getElem_map, List.getElem_range]
    exact hmain i hi

/-- Witness for C2 at `p = [2, 0, 1]`. -/
theorem invperm_spec_witness :
    ∃ q, invperm [2, 0, 1] = .ok q ∧ q.length = ([2, 0, 1] : List ℕ).length
      ∧ (∀ i, i < ([2, 0, 1] : List ℕ).length →
          q.getD (([2, 0, 1] : List ℕ).getD i 0) 0 = i)
      ∧ compperm [2, 0, 1] q = .ok (List.range ([2, 0, 1] : List ℕ).length)
      ∧ compperm q [2, 0, 1] = .ok (List.range ([2, 0, 1] : List ℕ).length) :=
  invperm_spec [2, 0, 1] (by decide)

/-- C8: composition fails, with the invalid-permutation error in every
case, exactly when an input fails the bijection check or the lengths
differ; on valid equal-length inputs it returns `result[i] = perm[sigma[i]]`
(`sigma` applied first). -/
theorem compperm_spec (p s : List ℕ) :
    (compperm p s = .error .PERM_INVALID ↔
      (¬ _check_perm p ∨ ¬ _check_perm s ∨ p.length ≠ s.length))
    ∧ (_check_perm p → _check_perm s → p.length = s.length →
        ∃ r, compperm p s = .ok r ∧ r.length = p.length
          ∧ ∀ i, i < p.length → r.getD i 0 = p.getD (s.getD i 0) 0) := by
  constructor
  · constructor
    · intro he
      by_contra hcon
      push_neg at hcon
      obtain ⟨h1, h2, h3⟩ := hcon
      rw [compperm, if_neg (not_not_intro h1), if_neg (not_not_intro h2),
        if_neg (not_not_intro h3)] at he
      exact absurd he (by simp)
    · intro hor
      by_cases h1 : _check_perm p
      · by_cases h2 : _check_perm s
        · have h3 : p.length ≠ s.length := by tauto
          rw [compperm, if_neg (not_not_intro h1), if_neg (not_not_intro h2),
            if_pos h3]
        · rw [compperm, if_neg (not_not_intro h1), if_pos h2]
      · rw [compperm, if_pos h1]
  · intro hp hs hl
    refine ⟨_, by rw [compperm, if_neg (not_not_intro hp),
      if_neg (not_not_intro hs), if_neg (not_not_intro hl)], by simp, ?_⟩
    intro i hi
    exact getD_map_range p.length _ i hi

/-- Witness for C8 at `perm = [2, 0, 1]`, `sigma = [1, 2, 0]`. -/
theorem compperm_spec_witness :
    ∃ r, compperm [2, 0, 1] [1, 2, 0] = .ok r
      ∧ r.length = ([2, 0, 1] : List ℕ).length
      ∧ ∀ i, i < ([2, 0, 1] : List ℕ).length →
          r.getD i 0 = ([2, 0, 1] : List ℕ).getD (([1, 2, 0] : List ℕ).getD i 0) 0 :=
  (compperm_spec [2, 0, 1] [1, 2, 0]).2 (by decide) (by decide) rfl

end Qpp
